import Mathlib

/-!
Shallow embedding of the request pipeline of the `http-benchmark` (Bifrost)
reverse proxy: the hop-by-hop header stripping and `X-Forwarded-For` logic of
`Proxy.ServeHTTP`, the load-balancing strategies of `Upstream`
(`roundRobin`, `weighted`, `random`, `hasing`), the post-proxy bookkeeping of
`Service.ServeHTTP`, and the access-log template substitution of
`LoggerTracer.buildReplacer`.  Headers are modelled as association lists of
canonical-key/value pairs, machine integers as `Nat`/`Int` with explicit
wrap-around where Go's fixed-width arithmetic matters.
-/

namespace Bifrost

/-! ## Header model

A hertz header is a multimap from canonical header names to values; we model
it as a list of pairs.  `del` removes every entry with the given key
(hertz `DelBytes`), `set` replaces all entries with a single one
(hertz `Set`), `peek` returns the first value (hertz `Peek`, which returns
nil when the key is absent). -/

abbrev Header := List (String × String)

def Header.del (h : Header) (name : String) : Header :=
  h.filter (fun p => p.1 ≠ name)

def Header.peekAll (h : Header) (name : String) : List String :=
  (h.filter (fun p => p.1 = name)).map Prod.snd

def Header.peek (h : Header) (name : String) : Option String :=
  (h.peekAll name).head?

def Header.set (h : Header) (name val : String) : Header :=
  h.del name ++ [(name, val)]

def Header.has (h : Header) (name : String) : Bool :=
  h.any (fun p => p.1 = name)

/-- Hop-by-hop headers removed when sent to the backend (`hopHeaders` in the
proxy source). -/
def hopHeaders : List String :=
  ["Connection", "Proxy-Connection", "Keep-Alive", "Proxy-Authenticate",
   "Proxy-Authorization", "Te", "Trailer", "Transfer-Encoding", "Upgrade"]

/-- Model of `textproto.TrimString`: strip leading and trailing spaces and tabs. -/
def textprotoTrim (s : String) : String :=
  let isCut : Char → Bool := fun c => c = ' ' ∨ c = '\t'
  ⟨((s.data.dropWhile isCut).reverse.dropWhile isCut).reverse⟩

/-- The connection tokens of a header: every "Connection" value is split on
commas, trimmed, and empty tokens are dropped
(`removeRequestConnHeaders` / `removeResponseConnHeaders`). -/
def connTokens (h : Header) : List String :=
  (h.peekAll "Connection").flatMap
    (fun v => ((v.splitOn ",").map textprotoTrim).filter (fun t => t ≠ ""))

/-- Remove every header named by a Connection token (RFC 7230 section 6.1). -/
def removeConnHeaders (h : Header) : Header :=
  (connTokens h).foldl Header.del h

/-- Model of `checkTeHeader`: does some `Te` value contain the substring `trailers`? -/
def checkTeHeader (h : Header) : Bool :=
  (h.peekAll "Te").any (fun v => decide (List.IsInfix "trailers".data v.data))

/-- The hop-by-hop deletion loop of `Proxy.ServeHTTP`: delete every header in
`hopHeaders`, skipping `Trailer` when `transferTrailer` is enabled. -/
def stripHop (tt : Bool) (h : Header) : Header :=
  hopHeaders.foldl (fun acc n => if tt ∧ n = "Trailer" then acc else acc.del n) h

/-- The `X-Forwarded-For` step of `Proxy.ServeHTTP` (applied when the remote
address splits into an IP `ip`): append `ip` to a non-empty existing value,
set the header to `ip` when it is absent, and touch nothing when the header
is present with an empty value. -/
def forwardXffStep (h : Header) (ip : String) : Header :=
  match h.peek "X-Forwarded-For" with
  | none => h.set "X-Forwarded-For" ip
  | some tmp => if tmp ≠ "" then h.set "X-Forwarded-For" (tmp ++ ", " ++ ip) else h

/-- The header rewriting of `Proxy.ServeHTTP` up to and including the
`Te: trailers` re-add: `checkTeHeader` is consulted on the inbound headers,
connection-named headers are removed, the hop-by-hop set is stripped (keeping
`Trailer` when `transferTrailer`), and `Te: trailers` is re-added when
`transferTrailer` is enabled and the inbound `Te` contained `trailers`. -/
def teStep (tt : Bool) (h : Header) : Header :=
  let h2 := stripHop tt (removeConnHeaders h)
  if tt ∧ checkTeHeader h then h2.set "Te" "trailers" else h2

/-- Outbound request headers on the normal (non-upgrade, no client error)
path of `Proxy.ServeHTTP`: the `teStep` rewriting followed by the
`X-Forwarded-For` step (the latter skipped when the remote address has no
splittable IP, modelled by `ip = none`). -/
def outboundRequestHeaders (tt : Bool) (ip : Option String) (h : Header) : Header :=
  match ip with
  | none => teStep tt h
  | some ip => forwardXffStep (teStep tt h) ip

/-- Response headers after the normal path of `Proxy.ServeHTTP`:
connection-named headers removed, then the hop-by-hop set stripped (keeping
`Trailer` when `transferTrailer`). -/
def processResponseHeaders (tt : Bool) (h : Header) : Header :=
  stripHop tt (removeConnHeaders h)

/-! ### Header lemmas -/

theorem has_del_self (h : Header) (name : String) :
    (h.del name).has name = false := by
  simp only [Header.del, Header.has]
  rw [List.any_eq_false]
  intro x hx
  have hpx := List.of_mem_filter hx
  simp only [decide_eq_true_eq] at hpx ⊢
  exact hpx

theorem has_del_false (h : Header) (m name : String) (hh : h.has name = false) :
    (h.del m).has name = false := by
  simp only [Header.del, Header.has]
  rw [List.any_eq_false]
  intro x hx
  simp only [Header.has, List.any_eq_false] at hh
  exact hh x (List.mem_of_mem_filter hx)

theorem has_set_ne (h : Header) (m name v : String) (hne : name ≠ m) :
    (h.set m v).has name = h.has name := by
  have hsingle : (Header.has [(m, v)] name) = false := by
    simp [Header.has, Ne.symm hne]
  have hdel : (h.del m).has name = h.has name := by
    rw [Bool.eq_iff_iff]
    simp only [Header.del, Header.has, List.any_eq_true, List.mem_filter,
      decide_eq_true_eq]
    constructor
    · rintro ⟨x, ⟨hx, -⟩, hxn⟩
      exact ⟨x, hx, hxn⟩
    · rintro ⟨x, hx, hxn⟩
      exact ⟨x, ⟨hx, fun hm => hne (hxn ▸ hm)⟩, hxn⟩
  calc (h.set m v).has name
      = ((h.del m).has name || Header.has [(m, v)] name) := by
        simp [Header.set, Header.has, List.any_append]
    _ = h.has name := by rw [hsingle, hdel, Bool.or_false]

theorem peek_set_self (h : Header) (name v : String) :
    (h.set name v).peek name = some v := by
  have hdel : (h.del name).filter (fun p => decide (p.1 = name)) = [] := by
    rw [List.filter_eq_nil_iff]
    intro x hx
    have hpx := List.of_mem_filter hx
    simp only [decide_eq_true_eq] at hpx ⊢
    exact hpx
  simp [Header.set, Header.peek, Header.peekAll, List.filter_append, hdel, Header.del]

theorem stripFold_preserves (tt : Bool) (L : List String) (h : Header) (name : String)
    (hh : h.has name = false) :
    (L.foldl (fun acc n => if tt ∧ n = "Trailer" then acc else acc.del n) h).has name
      = false := by
  induction L generalizing h with
  | nil => exact hh
  | cons x t ih =>
      by_cases hx : tt = true ∧ x = "Trailer"
      · rw [List.foldl_cons, if_pos hx]
        exact ih h hh
      · rw [List.foldl_cons, if_neg hx]
        exact ih (h.del x) (has_del_false h x name hh)

theorem stripFold_has_false (tt : Bool) (L : List String) (h : Header) (name : String)
    (hmem : name ∈ L) (hskip : ¬ (tt = true ∧ name = "Trailer")) :
    (L.foldl (fun acc n => if tt ∧ n = "Trailer" then acc else acc.del n) h).has name
      = false := by
  induction L generalizing h with
  | nil => cases hmem
  | cons x t ih =>
      rcases List.mem_cons.mp hmem with rfl | hmem'
      · rw [List.foldl_cons, if_neg hskip]
        exact stripFold_preserves tt t (h.del name) name (has_del_self h name)
      · by_cases hx : tt = true ∧ x = "Trailer"
        · rw [List.foldl_cons, if_pos hx]
          exact ih h hmem'
        · rw [List.foldl_cons, if_neg hx]
          exact ih (h.del x) hmem'

theorem stripHop_has_false (tt : Bool) (h : Header) (name : String)
    (hmem : name ∈ hopHeaders) (hskip : ¬ (tt = true ∧ name = "Trailer")) :
    (stripHop tt h).has name = false :=
  stripFold_has_false tt hopHeaders h name hmem hskip

theorem peekAll_set_self (h : Header) (name v : String) :
    (h.set name v).peekAll name = [v] := by
  have hdel : (h.del name).filter (fun p => decide (p.1 = name)) = [] := by
    rw [List.filter_eq_nil_iff]
    intro x hx
    have hpx := List.of_mem_filter hx
    simp only [decide_eq_true_eq] at hpx ⊢
    exact hpx
  simp [Header.set, Header.peekAll, List.filter_append, hdel, Header.del]

theorem peekAll_del_ne (h : Header) (m name : String) (hne : name ≠ m) :
    (h.del m).peekAll name = h.peekAll name := by
  simp only [Header.del, Header.peekAll]
  congr 1
  rw [List.filter_filter]
  apply List.filter_congr
  intro a _
  by_cases ha : a.1 = name
  · have ham : a.1 ≠ m := fun hm => hne (ha ▸ hm)
    simp [ha, ham, hne]
  · simp [ha]

theorem peekAll_set_ne (h : Header) (m name v : String) (hne : name ≠ m) :
    (h.set m v).peekAll name = h.peekAll name := by
  have hsingle : Header.peekAll [(m, v)] name = [] := by
    simp [Header.peekAll, Ne.symm hne]
  calc (h.set m v).peekAll name
      = (h.del m).peekAll name ++ Header.peekAll [(m, v)] name := by
        simp [Header.set, Header.peekAll, List.filter_append]
    _ = h.peekAll name := by rw [hsingle, peekAll_del_ne h m name hne, List.append_nil]

theorem forwardXff_has_ne (h : Header) (ip name : String)
    (hne : name ≠ "X-Forwarded-For") :
    (forwardXffStep h ip).has name = h.has name := by
  unfold forwardXffStep
  split
  · exact has_set_ne h _ name ip hne
  · split
    · exact has_set_ne h _ name _ hne
    · rfl

theorem forwardXff_peekAll_ne (h : Header) (ip name : String)
    (hne : name ≠ "X-Forwarded-For") :
    (forwardXffStep h ip).peekAll name = h.peekAll name := by
  unfold forwardXffStep
  split
  · exact peekAll_set_ne h _ name ip hne
  · split
    · exact peekAll_set_ne h _ name _ hne
    · rfl

theorem stripFold_peekAll_trailer (tt : Bool) (htt : tt = true) (L : List String)
    (h : Header) :
    (L.foldl (fun acc n => if tt ∧ n = "Trailer" then acc else acc.del n) h).peekAll
        "Trailer" = h.peekAll "Trailer" := by
  induction L generalizing h with
  | nil => rfl
  | cons x t ih =>
      by_cases hx : x = "Trailer"
      · rw [List.foldl_cons, if_pos ⟨htt, hx⟩]
        exact ih h
      · rw [List.foldl_cons, if_neg (fun hc => hx hc.2)]
        rw [ih (h.del x), peekAll_del_ne h x "Trailer" (Ne.symm hx)]

theorem teStep_has_false (tt : Bool) (h : Header) (name : String)
    (hmem : name ∈ hopHeaders)
    (hTrailer : ¬ (tt = true ∧ name = "Trailer"))
    (hTe : ¬ (tt = true ∧ name = "Te" ∧ checkTeHeader h = true)) :
    (teStep tt h).has name = false := by
  have habs1 : (stripHop tt (removeConnHeaders h)).has name = false :=
    stripHop_has_false tt _ name hmem hTrailer
  unfold teStep
  split
  · next hcond =>
      by_cases hname : name = "Te"
      · exact absurd ⟨hcond.1, hname, hcond.2⟩ hTe
      · rw [has_set_ne _ _ name _ hname]
        exact habs1
  · exact habs1

theorem teStep_peekAll_te (tt : Bool) (h : Header) (htt : tt = true)
    (hte : checkTeHeader h = true) :
    (teStep tt h).peekAll "Te" = ["trailers"] := by
  unfold teStep
  rw [if_pos ⟨htt, hte⟩]
  exact peekAll_set_self _ "Te" "trailers"

theorem teStep_peekAll_trailer (tt : Bool) (h : Header) (htt : tt = true) :
    (teStep tt h).peekAll "Trailer" = (removeConnHeaders h).peekAll "Trailer" := by
  have hstrip : (stripHop tt (removeConnHeaders h)).peekAll "Trailer"
      = (removeConnHeaders h).peekAll "Trailer" :=
    stripFold_peekAll_trailer tt htt hopHeaders (removeConnHeaders h)
  unfold teStep
  split
  · rw [peekAll_set_ne _ "Te" "Trailer" "trailers" (by decide)]
    exact hstrip
  · exact hstrip

/-! ## Claim C2 and C4 theorems -/

/-- Claim C2: on the normal (non-upgrade, error-free) path of
`Proxy.ServeHTTP`, every hop-by-hop header is absent from the outbound
request headers and from the response headers, except that `Trailer` is kept
(not stripped by the hop-by-hop loop) when `transferTrailer` is enabled, and
`Te: trailers` is re-added on the outbound when `transferTrailer` is enabled
and the inbound `Te` contained `trailers`. -/
theorem proxy_strips_hop_headers (tt : Bool) (ip : Option String)
    (hreq hresp : Header) :
    (∀ name ∈ hopHeaders,
        ¬ (tt = true ∧ name = "Trailer") →
        ¬ (tt = true ∧ name = "Te" ∧ checkTeHeader hreq = true) →
        (outboundRequestHeaders tt ip hreq).has name = false ∧
        (processResponseHeaders tt hresp).has name = false)
    ∧ (tt = true → checkTeHeader hreq = true →
        (outboundRequestHeaders tt ip hreq).peekAll "Te" = ["trailers"])
    ∧ (tt = true →
        (outboundRequestHeaders tt ip hreq).peekAll "Trailer"
            = (removeConnHeaders hreq).peekAll "Trailer" ∧
        (processResponseHeaders tt hresp).peekAll "Trailer"
            = (removeConnHeaders hresp).peekAll "Trailer") := by
  refine ⟨?_, ?_, ?_⟩
  · intro name hmem hTrailer hTe
    have hxffne : name ≠ "X-Forwarded-For" := by
      intro heq
      subst heq
      revert hmem
      decide
    have habs2 : (teStep tt hreq).has name = false :=
      teStep_has_false tt hreq name hmem hTrailer hTe
    refine ⟨?_, stripHop_has_false tt _ name hmem hTrailer⟩
    cases ip with
    | none => exact habs2
    | some ip' =>
        show (forwardXffStep (teStep tt hreq) ip').has name = false
        rw [forwardXff_has_ne _ ip' name hxffne]
        exact habs2
  · intro htt hte
    cases ip with
    | none => exact teStep_peekAll_te tt hreq htt hte
    | some ip' =>
        show (forwardXffStep (teStep tt hreq) ip').peekAll "Te" = ["trailers"]
        rw [forwardXff_peekAll_ne _ ip' "Te" (by decide)]
        exact teStep_peekAll_te tt hreq htt hte
  · intro htt
    refine ⟨?_, stripFold_peekAll_trailer tt htt hopHeaders (removeConnHeaders hresp)⟩
    cases ip with
    | none => exact teStep_peekAll_trailer tt hreq htt
    | some ip' =>
        show (forwardXffStep (teStep tt hreq) ip').peekAll "Trailer"
            = (removeConnHeaders hreq).peekAll "Trailer"
        rw [forwardXff_peekAll_ne _ ip' "Trailer" (by decide)]
        exact teStep_peekAll_trailer tt hreq htt

/-- Concrete instantiation of `proxy_strips_hop_headers`: with
`transferTrailer` enabled, an inbound request carrying `Te: trailers` and an
`Upgrade` header, and a backend response with `Transfer-Encoding`, the
`Upgrade` and `Transfer-Encoding` headers are stripped and `Te: trailers`
survives on the outbound. -/
theorem proxy_strips_hop_headers_witness :
    (outboundRequestHeaders true (some "1.2.3.4")
        [("Te", "trailers"), ("Upgrade", "websocket")]).has "Upgrade" = false
    ∧ (processResponseHeaders true [("Transfer-Encoding", "chunked")]).has
        "Transfer-Encoding" = false
    ∧ (outboundRequestHeaders true (some "1.2.3.4")
        [("Te", "trailers"), ("Upgrade", "websocket")]).peekAll "Te"
        = ["trailers"] := by
  have h := proxy_strips_hop_headers true (some "1.2.3.4")
    [("Te", "trailers"), ("Upgrade", "websocket")] [("Transfer-Encoding", "chunked")]
  refine ⟨(h.1 "Upgrade" (by decide) (by decide) (by decide)).1,
          (h.1 "Transfer-Encoding" (by decide) (by decide) (by decide)).2,
          h.2.1 rfl (by decide)⟩

/-- Claim C4: the `X-Forwarded-For` step of `Proxy.ServeHTTP` sets the header
to the client IP when it was absent, appends `, ip` to a non-empty inbound
value (so `A, B` becomes `A, B, ip`), and performs no write at all when the
inbound header is present with an empty value (the empty value is never
combined with or replaced by the peer IP). -/
theorem xff_forward_cases (h : Header) (ip : String) :
    (h.peek "X-Forwarded-For" = none →
      (forwardXffStep h ip).peek "X-Forwarded-For" = some ip)
    ∧ (∀ s, h.peek "X-Forwarded-For" = some s → s ≠ "" →
      (forwardXffStep h ip).peek "X-Forwarded-For" = some (s ++ ", " ++ ip))
    ∧ (h.peek "X-Forwarded-For" = some "" → forwardXffStep h ip = h) := by
  refine ⟨?_, ?_, ?_⟩
  · intro hnone
    unfold forwardXffStep
    rw [hnone]
    exact peek_set_self h "X-Forwarded-For" ip
  · intro s hsome hne
    unfold forwardXffStep
    rw [hsome]
    simp only [if_pos hne]
    exact peek_set_self h "X-Forwarded-For" (s ++ ", " ++ ip)
  · intro hempty
    unfold forwardXffStep
    rw [hempty]
    simp

/-- Concrete instantiation of `xff_forward_cases`: remote IP `5.6.7.8`,
inbound `X-Forwarded-For: A, B` becomes `A, B, 5.6.7.8`; with no inbound
header it becomes `5.6.7.8`; a present-but-empty inbound header is left
untouched. -/
theorem xff_forward_cases_witness :
    (forwardXffStep [("X-Forwarded-For", "A, B")] "5.6.7.8").peek "X-Forwarded-For"
        = some "A, B, 5.6.7.8"
    ∧ (forwardXffStep [("Host", "x")] "5.6.7.8").peek "X-Forwarded-For"
        = some "5.6.7.8"
    ∧ forwardXffStep [("X-Forwarded-For", "")] "5.6.7.8"
        = [("X-Forwarded-For", "")] := by
  refine ⟨?_, ?_, ?_⟩
  · exact (xff_forward_cases [("X-Forwarded-For", "A, B")] "5.6.7.8").2.1
      "A, B" (by decide) (by decide)
  · exact (xff_forward_cases [("Host", "x")] "5.6.7.8").1 (by decide)
  · exact (xff_forward_cases [("X-Forwarded-For", "")] "5.6.7.8").2.2 (by decide)

/-! ## Upstream load-balancing strategies

`Upstream` keeps a list of proxies, a `totalWeight` accumulated from the
target weights, an `atomic.Uint64` round-robin counter, an FNV-1a 32-bit
hasher, and an RNG.  Selection is modelled per strategy; the RNG is an
abstract state `R` with a draw function `R → Int → Int × R` standing for
`rand.Rand.Intn`, and machine integers are modelled with explicit wrap-around
(`uint64` counters, `int64` conversion, Go's truncated `%`). -/

/-- The value `2^64`, one more than the largest `uint64`. -/
def UINT64_SIZE : Nat := 2 ^ 64

/-- The value `2^63`, one more than the largest `int64`. -/
def INT64_HALF : Nat := 2 ^ 63

/-- The mathematical total weight of an upstream: the unbounded sum of its
target weights. -/
def totalWeight (ws : List Int) : Int := ws.sum

/-- Go's `int64` wrap-around: reduce an integer into `[-2^63, 2^63)`. -/
def goInt64Wrap (z : Int) : Int :=
  (z + (INT64_HALF : Int)) % (UINT64_SIZE : Int) - (INT64_HALF : Int)

/-- Go's `x + y` on `int64` values (two's-complement wrap-around). -/
def goInt64Add (x y : Int) : Int := goInt64Wrap (x + y)

/-- The `totalWeight` field of `Upstream` as `newUpstream` computes it:
`upstream.totalWeight += targetOpts.Weight` accumulated over the targets in a
wrapping 64-bit Go `int` starting at zero (no upper-bound validation is
performed at load time). -/
def totalWeightGo (ws : List Int) : Int := ws.foldl goInt64Add 0

/-- Sum of the first `k` target weights. -/
def pSum (ws : List Int) (k : Nat) : Int := (ws.take k).sum

/-- The subtraction loop of `Upstream.weighted`: subtract weights in list
order from the drawn value and return the proxy whose subtraction crosses
zero; fall through to `none` (Go `nil`) when the loop ends. -/
def weightedLoop : List Int → Int → Nat → Option Nat
  | [], _, _ => none
  | w :: rest, r, idx =>
      if r - w < 0 then some idx else weightedLoop rest (r - w) (idx + 1)

/-- Model of `Upstream.weighted` with the random draw `r` made explicit: a single
proxy is returned immediately, otherwise the drawn value is fed to the
subtraction loop. -/
def weighted (ws : List Int) (r : Int) : Option Nat :=
  if ws.length = 1 then some 0 else weightedLoop ws r 0

/-- Model of `Upstream.weighted` as a transformer of the RNG state: the single-proxy
shortcut skips the draw entirely; `rand.Intn(u.totalWeight)` is called with
the wrapping 64-bit `totalWeightGo` accumulator and panics (modelled `none`)
when that value is not positive. -/
def weightedSel {R : Type} (draw : R → Int → Int × R) (ws : List Int)
    (rng : R) : Option Nat × R :=
  if ws.length = 1 then (some 0, rng)
  else if totalWeightGo ws ≤ 0 then (none, rng)
  else
    let p := draw rng (totalWeightGo ws)
    (weightedLoop ws p.1 0, p.2)

/-- Model of `Upstream.random`: the single-proxy shortcut skips the draw; otherwise
one uniform draw indexes the proxy list (an out-of-range draw would panic,
modelled `none`). -/
def randomSel {R : Type} (draw : R → Int → Int × R) (n : Nat)
    (rng : R) : Option Nat × R :=
  if n = 1 then (some 0, rng)
  else if n = 0 then (none, rng)
  else
    let p := draw rng (n : Int)
    (if 0 ≤ p.1 ∧ p.1 < (n : Int) then some p.1.toNat else none, p.2)

/-- UTF-8 bytes of a character (Go's `[]byte(key)` conversion). -/
def utf8Bytes (c : Char) : List Nat :=
  let n := c.toNat
  if n < 0x80 then [n]
  else if n < 0x800 then [0xC0 ||| (n >>> 6), 0x80 ||| (n &&& 0x3F)]
  else if n < 0x10000 then
    [0xE0 ||| (n >>> 12), 0x80 ||| ((n >>> 6) &&& 0x3F), 0x80 ||| (n &&& 0x3F)]
  else
    [0xF0 ||| (n >>> 18), 0x80 ||| ((n >>> 12) &&& 0x3F),
     0x80 ||| ((n >>> 6) &&& 0x3F), 0x80 ||| (n &&& 0x3F)]

/-- UTF-8 byte sequence of a string (`[]byte(key)` in Go). -/
def strBytes (s : String) : List Nat := s.data.flatMap utf8Bytes

/-- FNV-1a 32-bit offset basis (`fnv.New32a()` initial state). -/
def fnvOffset32 : Nat := 2166136261

/-- FNV-1a 32-bit prime. -/
def fnvPrime32 : Nat := 16777619

/-- Model of the `hash/fnv` 32-bit FNV-1a `Write`: starting from state `h`, xor each byte
in and multiply by the prime modulo `2^32`. -/
def fnv32aUpdate (h : Nat) (bytes : List Nat) : Nat :=
  bytes.foldl (fun acc b => ((acc ^^^ b) * fnvPrime32) % 2 ^ 32) h

/-- Model of `Upstream.hasing`: a single proxy is returned immediately with the hasher
untouched; otherwise the key is written into the (never reset) hasher and the
new 32-bit state, taken modulo the proxy count, selects the proxy.  Returns
the selection together with the hasher state after the call. -/
def hasing (n : Nat) (hstate : Nat) (key : String) : Option Nat × Nat :=
  if n = 1 then (some 0, hstate)
  else
    (if n = 0 then none else some (fnv32aUpdate hstate (strBytes key) % n),
     fnv32aUpdate hstate (strBytes key))

/-- Go's `int(u)` conversion of a `uint64` value: reinterpret the bits as a
two's-complement signed 64-bit integer. -/
def goIntOfUint64 (u : Nat) : Int :=
  if u < INT64_HALF then (u : Int) else (u : Int) - (UINT64_SIZE : Int)

/-- Go's `x - 1` on `int64`, with two's-complement wrap-around at the most
negative value. -/
def goInt64Dec (x : Int) : Int :=
  if x = -(INT64_HALF : Int) then (INT64_HALF : Int) - 1 else x - 1

/-- The Go expression `(int(index)-1) % n` used to index the proxy list in
`Upstream.roundRobin` (`Int.tmod` is Go's truncated `%`), guarded by the
bounds check Go's indexing performs: a negative or out-of-range result
panics, modelled `none`. -/
def goIndex (n : Nat) (index : Nat) : Option Nat :=
  if 0 ≤ (goInt64Dec (goIntOfUint64 index)).tmod (n : Int) ∧
      (goInt64Dec (goIntOfUint64 index)).tmod (n : Int) < (n : Int) then
    some ((goInt64Dec (goIntOfUint64 index)).tmod (n : Int)).toNat
  else none

/-- Model of `Upstream.roundRobin` over the `uint64` counter: a single proxy is
returned without touching the counter; otherwise `counter.Add(1)` yields the
new value `index` and the proxy at Go index `(int(index)-1) % n` is selected
(indexing an empty list, `n = 0`, panics in Go's `%`, modelled `none`).
Returns the selection together with the counter after the call. -/
def roundRobin (n : Nat) (counter : Nat) : Option Nat × Nat :=
  if n = 1 then (some 0, counter)
  else if n = 0 then (none, (counter + 1) % UINT64_SIZE)
  else (goIndex n ((counter + 1) % UINT64_SIZE), (counter + 1) % UINT64_SIZE)

/-- A window of `k` consecutive sequential `roundRobin` selections starting
from counter value `counter`. -/
def rrSeq (n : Nat) (counter : Nat) : Nat → List (Option Nat)
  | 0 => []
  | Nat.succ k =>
      let p := roundRobin n counter
      p.1 :: rrSeq n p.2 k

/-! ### Weighted strategy lemmas -/

theorem pSum_zero (ws : List Int) : pSum ws 0 = 0 := rfl

theorem pSum_cons_succ (w : Int) (rest : List Int) (k : Nat) :
    pSum (w :: rest) (k + 1) = w + pSum rest k := by
  simp [pSum, List.take_succ_cons]

theorem pSum_nonneg (ws : List Int) (hpos : ∀ w ∈ ws, 0 < w) (k : Nat) :
    0 ≤ pSum ws k := by
  apply List.sum_nonneg
  intro x hx
  exact le_of_lt (hpos x (List.take_subset k ws hx))

theorem pSum_mono (ws : List Int) (hpos : ∀ w ∈ ws, 0 < w) {j k : Nat}
    (hjk : j ≤ k) : pSum ws j ≤ pSum ws k := by
  have hsplit : ws.take k = ws.take j ++ (ws.take k).drop j := by
    conv_lhs => rw [← List.take_append_drop j (ws.take k)]
    rw [List.take_take, Nat.min_eq_left hjk]
  have hnn : 0 ≤ ((ws.take k).drop j).sum := by
    apply List.sum_nonneg
    intro x hx
    exact le_of_lt (hpos x (List.take_subset k ws (List.drop_subset j _ hx)))
  calc pSum ws j ≤ pSum ws j + ((ws.take k).drop j).sum := by linarith
    _ = pSum ws k := by
        rw [pSum, pSum]
        conv_rhs => rw [hsplit]
        rw [List.sum_append]

theorem pSum_of_length_le (ws : List Int) {k : Nat} (hk : ws.length ≤ k) :
    pSum ws k = totalWeight ws := by
  rw [pSum, totalWeight, List.take_of_length_le hk]

theorem pSum_succ_get (ws : List Int) (i : Nat) (hi : i < ws.length) :
    pSum ws (i + 1) = pSum ws i + ws.get ⟨i, hi⟩ := by
  simp only [pSum, List.take_succ, List.getElem?_eq_getElem hi,
    Option.toList_some, List.sum_append, List.sum_cons, List.sum_nil,
    List.get_eq_getElem, add_zero]

theorem weightedLoop_le_of_eq_some (ws : List Int) (r : Int) (idx m : Nat)
    (h : weightedLoop ws r idx = some m) : idx ≤ m := by
  induction ws generalizing r idx with
  | nil => simp [weightedLoop] at h
  | cons w rest ih =>
      unfold weightedLoop at h
      split at h
      · simp only [Option.some.injEq] at h
        omega
      · have := ih (r - w) (idx + 1) h
        omega

theorem weightedLoop_eq_some_iff (ws : List Int) (hpos : ∀ w ∈ ws, 0 < w)
    (r : Int) (hr : 0 ≤ r) (idx i : Nat) :
    weightedLoop ws r idx = some (idx + i) ↔
      pSum ws i ≤ r ∧ r < pSum ws (i + 1) := by
  induction ws generalizing r idx i with
  | nil =>
      simp only [weightedLoop, pSum, List.take_nil, List.sum_nil]
      constructor
      · intro h
        cases h
      · intro h
        exact absurd h.2 (not_lt.mpr hr)
  | cons w rest ih =>
      have hw : 0 < w := hpos w (List.mem_cons_self w rest)
      have hpos' : ∀ x ∈ rest, 0 < x := fun x hx => hpos x (List.mem_cons_of_mem _ hx)
      have hps1 : pSum (w :: rest) 1 = w := by
        rw [show (1 : Nat) = 0 + 1 by rfl, pSum_cons_succ, pSum_zero]
        ring
      unfold weightedLoop
      by_cases hc : r - w < 0
      · rw [if_pos hc]
        cases i with
        | zero =>
            simp only [Nat.add_zero, Option.some.injEq]
            constructor
            · intro _
              refine ⟨?_, ?_⟩
              · rw [pSum_zero]
                exact hr
              · rw [show (0 : Nat) + 1 = 1 by rfl, hps1]
                linarith
            · intro _
              trivial
        | succ k =>
            have hnn : 0 ≤ pSum rest k := pSum_nonneg rest hpos' k
            constructor
            · intro h
              simp only [Option.some.injEq] at h
              omega
            · intro h
              have h1 := h.1
              rw [pSum_cons_succ] at h1
              exfalso
              linarith
      · rw [if_neg hc]
        have h0 : 0 ≤ r - w := by linarith [not_lt.mp hc]
        cases i with
        | zero =>
            rw [Nat.add_zero]
            constructor
            · intro h
              have hle := weightedLoop_le_of_eq_some rest (r - w) (idx + 1) idx h
              exact absurd hle (by omega)
            · intro h
              have h2 := h.2
              rw [show (0 : Nat) + 1 = 1 by rfl, hps1] at h2
              exfalso
              linarith [not_lt.mp hc]
        | succ k =>
            have hrw := ih hpos' (r - w) h0 (idx + 1) k
            have harith : idx + (k + 1) = (idx + 1) + k := by omega
            rw [harith, hrw, pSum_cons_succ, pSum_cons_succ]
            constructor
            · intro h
              exact ⟨by linarith [h.1], by linarith [h.2]⟩
            · intro h
              exact ⟨by linarith [h.1], by linarith [h.2]⟩

theorem weighted_eq_some_iff_interval (ws : List Int) (hpos : ∀ w ∈ ws, 0 < w)
    (r : Int) (hr0 : 0 ≤ r) (hrt : r < totalWeight ws) (i : Nat) :
    weighted ws r = some i ↔ pSum ws i ≤ r ∧ r < pSum ws (i + 1) := by
  unfold weighted
  by_cases hlen : ws.length = 1
  · obtain ⟨w, rfl⟩ := List.length_eq_one.mp hlen
    rw [if_pos hlen]
    have hw : r < w := by simpa [totalWeight] using hrt
    have hps1 : pSum [w] 1 = w := by
      rw [show (1 : Nat) = 0 + 1 by rfl, pSum_cons_succ, pSum_zero]
      simp [pSum]
    cases i with
    | zero =>
        simp only [Option.some.injEq]
        constructor
        · intro _
          refine ⟨?_, ?_⟩
          · rw [pSum_zero]
            exact hr0
          · rw [show (0 : Nat) + 1 = 1 by rfl, hps1]
            exact hw
        · intro _
          trivial
    | succ k =>
        have h1 : pSum [w] (k + 1) = w := by
          rw [pSum_cons_succ]
          simp [pSum]
        have h2 : pSum [w] (k + 1 + 1) = w := by
          rw [pSum_cons_succ]
          simp [pSum]
        constructor
        · intro h
          cases h
        · intro h
          have ha := h.1
          have hb := h.2
          rw [h1] at ha
          rw [h2] at hb
          exact absurd hb (not_lt.mpr ha)
  · rw [if_neg hlen]
    have := weightedLoop_eq_some_iff ws hpos r hr0 0 i
    simpa using this

theorem weighted_isSome_of_lt_total (ws : List Int) (hpos : ∀ w ∈ ws, 0 < w)
    (r : Int) (hr0 : 0 ≤ r) (hrt : r < totalWeight ws) :
    ∃ i : Nat, weighted ws r = some i ∧ i < ws.length := by
  have hloop : ∀ (l : List Int) (r : Int) (idx : Nat), 0 ≤ r → r < l.sum →
      ∃ j, weightedLoop l r idx = some (idx + j) ∧ j < l.length := by
    intro l
    induction l with
    | nil =>
        intro r idx h0 hs
        simp only [List.sum_nil] at hs
        exact absurd hs (not_lt.mpr h0)
    | cons w rest ih =>
        intro r idx h0 hs
        by_cases hc : r - w < 0
        · exact ⟨0, by simp [weightedLoop, hc], by simp⟩
        · have h0' : 0 ≤ r - w := by linarith [not_lt.mp hc]
          have hs' : r - w < rest.sum := by
            simp only [List.sum_cons] at hs
            linarith
          obtain ⟨j, hj, hjlen⟩ := ih (r - w) (idx + 1) h0' hs'
          refine ⟨j + 1, ?_, by simpa using Nat.succ_lt_succ hjlen⟩
          unfold weightedLoop
          rw [if_neg hc]
          rw [show idx + (j + 1) = (idx + 1) + j by omega]
          exact hj
  unfold weighted
  by_cases hlen : ws.length = 1
  · rw [if_pos hlen]
    exact ⟨0, rfl, by omega⟩
  · rw [if_neg hlen]
    obtain ⟨j, hj, hjlen⟩ := hloop ws r 0 hr0 (by simpa [totalWeight] using hrt)
    exact ⟨j, by simpa using hj, hjlen⟩

theorem weighted_count (ws : List Int) (hpos : ∀ w ∈ ws, 0 < w) (i : Nat)
    (hi : i < ws.length) :
    ((Finset.range (totalWeight ws).toNat).filter
        (fun k : Nat => weighted ws (k : Int) = some i)).card = (ws.get ⟨i, hi⟩).toNat := by
  have hnn_i : 0 ≤ pSum ws i := pSum_nonneg ws hpos i
  have hnn_i1 : 0 ≤ pSum ws (i + 1) := pSum_nonneg ws hpos (i + 1)
  have htot_nn : 0 ≤ totalWeight ws :=
    List.sum_nonneg (fun x hx => le_of_lt (hpos x hx))
  have hle_tot : pSum ws (i + 1) ≤ totalWeight ws := by
    rw [← pSum_of_length_le ws (le_refl ws.length)]
    exact pSum_mono ws hpos (by omega)
  have hgetpos : 0 < ws.get ⟨i, hi⟩ := hpos _ (ws.get_mem i hi)
  have hsucc : pSum ws (i + 1) = pSum ws i + ws.get ⟨i, hi⟩ := pSum_succ_get ws i hi
  have hset : (Finset.range (totalWeight ws).toNat).filter
        (fun k : Nat => weighted ws (k : Int) = some i)
      = Finset.Ico (pSum ws i).toNat (pSum ws (i + 1)).toNat := by
    ext k
    simp only [Finset.mem_filter, Finset.mem_range, Finset.mem_Ico]
    constructor
    · rintro ⟨hk, hw⟩
      have hk2 : (k : Int) < totalWeight ws := by omega
      have hint := (weighted_eq_some_iff_interval ws hpos (k : Int)
        (Int.natCast_nonneg k) hk2 i).mp hw
      omega
    · rintro ⟨hka, hkb⟩
      have h1 : pSum ws i ≤ (k : Int) := by omega
      have h2 : (k : Int) < pSum ws (i + 1) := by omega
      have hk2 : (k : Int) < totalWeight ws := lt_of_lt_of_le h2 hle_tot
      refine ⟨by omega, ?_⟩
      exact (weighted_eq_some_iff_interval ws hpos (k : Int)
        (Int.natCast_nonneg k) hk2 i).mpr ⟨h1, h2⟩
  rw [hset, Nat.card_Ico]
  omega

/-! ## Claim C5 and C9 theorems -/

/-- Claim C5: for an upstream whose target weights are all positive and a
random draw `r` in `[0, totalWeight)`, `Upstream.weighted` returns the target
with the least index `i` such that the prefix sum `w1 + ... + w(i+1)` exceeds
`r` (the target whose subtraction in list order first crosses zero), and the
number of draws selecting target `i` equals its weight, so target `i` is
chosen with probability `wi / totalWeight` under a uniform draw. -/
theorem weighted_selects_least_crossing (ws : List Int)
    (hpos : ∀ w ∈ ws, 0 < w) (hne : ws ≠ []) :
    (∀ r : Int, 0 ≤ r → r < totalWeight ws →
      ∀ i : Nat, weighted ws r = some i ↔
        (r < pSum ws (i + 1) ∧ ∀ j : Nat, r < pSum ws (j + 1) → i ≤ j))
    ∧ ∀ i : Nat, ∀ hi : i < ws.length,
        ((Finset.range (totalWeight ws).toNat).filter
            (fun k : Nat => weighted ws (k : Int) = some i)).card
          = (ws.get ⟨i, hi⟩).toNat := by
  constructor
  · intro r hr0 hrt i
    rw [weighted_eq_some_iff_interval ws hpos r hr0 hrt i]
    constructor
    · rintro ⟨hla, hlb⟩
      refine ⟨hlb, ?_⟩
      intro j hj
      by_contra hji
      have hj1 : j + 1 ≤ i := by omega
      have := pSum_mono ws hpos hj1
      linarith
    · rintro ⟨hlb, hleast⟩
      refine ⟨?_, hlb⟩
      cases i with
      | zero =>
          rw [pSum_zero]
          exact hr0
      | succ k =>
          by_contra hlt
          have hklt : r < pSum ws (k + 1) := not_le.mp hlt
          have := hleast k hklt
          omega
  · intro i hi
    exact weighted_count ws hpos i hi

/-- Concrete instantiation of `weighted_selects_least_crossing` at weights
`[1, 2, 3]`: the draw `3` selects index `2` (the first prefix sum exceeding
`3` is `1 + 2 + 3`), and exactly `3` of the `6` possible draws select
index `2`. -/
theorem weighted_selects_least_crossing_witness :
    weighted [1, 2, 3] 3 = some 2
    ∧ ((Finset.range (totalWeight [1, 2, 3]).toNat).filter
        (fun k : Nat => weighted [1, 2, 3] (k : Int) = some 2)).card = 3 := by
  have h := weighted_selects_least_crossing [1, 2, 3]
    (by intro w hw; fin_cases hw <;> norm_num) (by decide)
  constructor
  · refine (h.1 3 (by norm_num) (by norm_num [totalWeight]) 2).mpr ⟨?_, ?_⟩
    · decide
    · intro j hj
      match j with
      | 0 => exact absurd hj (by decide)
      | 1 => exact absurd hj (by decide)
      | (k + 2) => omega
  · have h2 := h.2 2 (by decide)
    rw [h2]
    decide

theorem goInt64Wrap_eq_self (z : Int) (h0 : -(INT64_HALF : Int) ≤ z)
    (h1 : z < (INT64_HALF : Int)) : goInt64Wrap z = z := by
  have hH : (INT64_HALF : Int) = 9223372036854775808 := by norm_num [INT64_HALF]
  have hU : (UINT64_SIZE : Int) = 18446744073709551616 := by norm_num [UINT64_SIZE]
  unfold goInt64Wrap
  rw [hH] at h0 h1
  rw [hH, hU]
  rw [Int.emod_eq_of_lt (by omega) (by omega)]
  omega

theorem foldl_goInt64Add_eq (ws : List Int) :
    ∀ acc : Int, (∀ w ∈ ws, 0 < w) → 0 ≤ acc →
      acc + totalWeight ws < (INT64_HALF : Int) →
      ws.foldl goInt64Add acc = acc + totalWeight ws := by
  induction ws with
  | nil =>
      intro acc _ _ _
      simp [totalWeight]
  | cons w rest ih =>
      intro acc hpos hacc hbound
      have hw : 0 < w := hpos w (List.mem_cons_self w rest)
      have hpos' : ∀ x ∈ rest, 0 < x := fun x hx => hpos x (List.mem_cons_of_mem _ hx)
      have hrest : 0 ≤ totalWeight rest :=
        List.sum_nonneg (fun x hx => le_of_lt (hpos' x hx))
      have hTW : totalWeight (w :: rest) = w + totalWeight rest := by
        simp [totalWeight]
      have hposH : (0 : Int) < (INT64_HALF : Int) := by norm_num [INT64_HALF]
      rw [hTW] at hbound
      have hstep : goInt64Add acc w = acc + w := by
        unfold goInt64Add
        exact goInt64Wrap_eq_self (acc + w) (by linarith) (by linarith)
      rw [List.foldl_cons, hstep,
        ih (acc + w) hpos' (by linarith) (by linarith), hTW]
      ring

theorem totalWeightGo_eq (ws : List Int) (hpos : ∀ w ∈ ws, 0 < w)
    (hbound : totalWeight ws < (INT64_HALF : Int)) :
    totalWeightGo ws = totalWeight ws := by
  have h := foldl_goInt64Add_eq ws 0 hpos le_rfl (by simpa using hbound)
  simpa [totalWeightGo] using h

/-- Counterexample to claim C9 as stated: two targets with the positive
weights `2^62 + 1` each (expressible in a config, and accepted by load-time
validation, which only rejects weight zero) overflow the wrapping 64-bit
`totalWeight` accumulator to a negative value, so `rand.Intn(u.totalWeight)`
panics — modelled by `weightedSel` returning `none` — even though every
target weight is positive. -/
theorem weighted_overflow_counterexample :
    (∀ w ∈ [(2 : Int) ^ 62 + 1, 2 ^ 62 + 1], 0 < w)
    ∧ totalWeightGo [(2 : Int) ^ 62 + 1, 2 ^ 62 + 1] < 0
    ∧ (weightedSel (fun (u : Unit) (_ : Int) => (0, u))
        [(2 : Int) ^ 62 + 1, 2 ^ 62 + 1] ()).1 = none := by
  refine ⟨?_, by decide, by decide⟩
  intro w hw
  fin_cases hw <;> norm_num

/-- Claim C9 (amended): when every target weight is positive, there is at
least one target, and the true sum of the weights stays below `2^63` (so the
wrapping 64-bit accumulator does not overflow), the accumulated `totalWeight`
equals the true sum and is positive — `rng.Intn(totalWeight)` cannot panic —
and every draw in `[0, totalWeight)` makes the subtraction loop cross zero at
a valid target index, so `weightedSel` never takes the panic branch and never
reaches the `nil` fall-through after the loop. -/
theorem weighted_never_nil (ws : List Int) (hpos : ∀ w ∈ ws, 0 < w)
    (hne : ws ≠ []) (hbound : totalWeight ws < (INT64_HALF : Int)) :
    totalWeightGo ws = totalWeight ws
    ∧ 0 < totalWeightGo ws
    ∧ (∀ r : Int, 0 ≤ r → r < totalWeightGo ws →
        ∃ i : Nat, weighted ws r = some i ∧ i < ws.length)
    ∧ ∀ {R : Type} (draw : R → Int → Int × R) (rng : R),
        0 ≤ (draw rng (totalWeightGo ws)).1 →
        (draw rng (totalWeightGo ws)).1 < totalWeightGo ws →
        (weightedSel draw ws rng).1.isSome = true := by
  have hEq : totalWeightGo ws = totalWeight ws := totalWeightGo_eq ws hpos hbound
  have hposTW : 0 < totalWeight ws := by
    obtain ⟨w, rest, rfl⟩ := List.exists_cons_of_ne_nil hne
    have hw : 0 < w := hpos w (List.mem_cons_self w rest)
    have hrest : 0 ≤ rest.sum :=
      List.sum_nonneg (fun x hx => le_of_lt (hpos x (List.mem_cons_of_mem _ hx)))
    have hTW : totalWeight (w :: rest) = w + rest.sum := by
      simp [totalWeight]
    rw [hTW]
    linarith
  refine ⟨hEq, by rw [hEq]; exact hposTW, ?_, ?_⟩
  · intro r h0 ht
    rw [hEq] at ht
    exact weighted_isSome_of_lt_total ws hpos r h0 ht
  · intro R draw rng h0 h1
    unfold weightedSel
    by_cases hlen : ws.length = 1
    · rw [if_pos hlen]
      rfl
    · rw [if_neg hlen, if_neg (by rw [hEq]; exact not_le.mpr hposTW)]
      have h1x : (draw rng (totalWeightGo ws)).1 < totalWeight ws :=
        lt_of_lt_of_le h1 (le_of_eq hEq)
      obtain ⟨i, hi, -⟩ :=
        weighted_isSome_of_lt_total ws hpos (draw rng (totalWeightGo ws)).1 h0 h1x
      unfold weighted at hi
      rw [if_neg hlen] at hi
      simp [hi]

/-- Concrete instantiation of `weighted_never_nil` at weights `[2, 5]` and
draw `4`: the accumulator matches the true sum `7`, is positive, and the loop
returns a valid index. -/
theorem weighted_never_nil_witness :
    totalWeightGo [(2 : Int), 5] = totalWeight [(2 : Int), 5]
    ∧ 0 < totalWeightGo [(2 : Int), 5]
    ∧ ∃ i : Nat, weighted [(2 : Int), 5] 4 = some i ∧ i < 2 := by
  have h := weighted_never_nil [2, 5]
    (by intro w hw; fin_cases hw <;> norm_num) (by decide)
    (by norm_num [totalWeight, INT64_HALF])
  refine ⟨h.1, h.2.1, ?_⟩
  have := h.2.2.1 4 (by norm_num) (by rw [h.1]; norm_num [totalWeight])
  simpa using this

/-! ### Round-robin lemmas -/

theorem goIndex_small (n idx : Nat) (hn : 0 < n) (h1 : 1 ≤ idx)
    (h2 : idx < INT64_HALF) : goIndex n idx = some ((idx - 1) % n) := by
  have hgo : goIntOfUint64 idx = (idx : Int) := by
    unfold goIntOfUint64
    rw [if_pos h2]
  have hposH : (0 : Int) < (INT64_HALF : Int) := by norm_num [INT64_HALF]
  have hdec : goInt64Dec ((idx : Int)) = ((idx - 1 : Nat) : Int) := by
    unfold goInt64Dec
    rw [if_neg (by omega : ¬ (idx : Int) = -(INT64_HALF : Int))]
    omega
  have htm : (((idx - 1 : Nat) : Int)).tmod (n : Int) = (((idx - 1) % n : Nat) : Int) := by
    rw [Int.tmod_eq_emod (Int.natCast_nonneg _) (Int.natCast_nonneg n)]
    push_cast
    rfl
  unfold goIndex
  rw [hgo, hdec, htm]
  rw [if_pos ⟨Int.natCast_nonneg _, by exact_mod_cast Nat.mod_lt _ hn⟩]
  rw [Int.toNat_natCast]

theorem roundRobin_step (n c : Nat) (hn : 2 ≤ n) (hsafe : c + 1 < INT64_HALF) :
    roundRobin n c = (some (c % n), c + 1) := by
  have hsize : c + 1 < UINT64_SIZE := by
    have hh : INT64_HALF < UINT64_SIZE := by norm_num [INT64_HALF, UINT64_SIZE]
    omega
  have hidx : (c + 1) % UINT64_SIZE = c + 1 := Nat.mod_eq_of_lt hsize
  unfold roundRobin
  rw [if_neg (by omega : ¬ n = 1), if_neg (by omega : ¬ n = 0), hidx]
  rw [goIndex_small n (c + 1) (by omega) (by omega) hsafe]
  simp

theorem rrSeq_get (n : Nat) (hn : 1 ≤ n) :
    ∀ (k c0 j : Nat), c0 + k < INT64_HALF → j < k →
      (rrSeq n c0 k).get? j = some (some ((c0 + j) % n)) := by
  intro k
  induction k with
  | zero =>
      intro c0 j _ hj
      omega
  | succ m ih =>
      intro c0 j hsafe hj
      by_cases h1 : n = 1
      · subst h1
        have hstep : roundRobin 1 c0 = (some 0, c0) := rfl
        cases j with
        | zero => simp [rrSeq, hstep, Nat.mod_one]
        | succ i =>
            have htail := ih c0 i (by omega) (by omega)
            simp only [rrSeq, hstep, List.get?_cons_succ]
            rw [htail]
            simp [Nat.mod_one]
      · have hn2 : 2 ≤ n := by omega
        have hstep := roundRobin_step n c0 hn2 (by omega)
        cases j with
        | zero => simp [rrSeq, hstep]
        | succ i =>
            have htail := ih (c0 + 1) i (by omega) (by omega)
            simp only [rrSeq, hstep, List.get?_cons_succ]
            rw [htail]
            have harith : c0 + 1 + i = c0 + (i + 1) := by omega
            rw [harith]

/-! ## Claim C6 theorems -/

/-- Counterexample to claim C6 as stated: with three targets and the counter
at `2^63`, the window of three consecutive round-robin selections is
`[none, none, some 0]` — the first two selections panic (Go's signed
conversion of the counter makes `(int(index)-1) % 3` negative) and target 1
is never selected, so the window does not return each target exactly once. -/
theorem roundRobin_window_counterexample :
    rrSeq 3 INT64_HALF 3 = [none, none, some 0]
    ∧ ¬ some 1 ∈ rrSeq 3 INT64_HALF 3 := by
  constructor
  · decide
  · decide

/-- Claim C6 (amended): with `N ≥ 1` targets and the counter values of the
window staying below `2^63` (so the `uint64 → int` conversion stays
non-negative; the five-minute counter reset keeps real executions far below
this bound), the `j`-th of `N` consecutive sequential round-robin selections
is target `(counter + j) mod N` — the monotonic counter value modulo `N` —
and the window covers each target exactly once, in cyclic target-list
order. -/
theorem roundRobin_window_coverage (n c0 : Nat) (hn : 1 ≤ n)
    (hsafe : c0 + n < INT64_HALF) :
    (∀ j : Nat, j < n → (rrSeq n c0 n).get? j = some (some ((c0 + j) % n)))
    ∧ ∀ t : Nat, t < n →
        ((Finset.range n).filter
            (fun j => (rrSeq n c0 n).get? j = some (some t))).card = 1 := by
  have hget : ∀ j, j < n → (rrSeq n c0 n).get? j = some (some ((c0 + j) % n)) :=
    fun j hj => rrSeq_get n hn n c0 j hsafe hj
  refine ⟨hget, ?_⟩
  intro t ht
  have hnpos : 0 < n := by omega
  have ha : c0 % n < n := Nat.mod_lt _ hnpos
  have key : (c0 + (t + n - c0 % n) % n) % n = t := by
    have e1 : c0 + (t + n - c0 % n) % n ≡ c0 % n + (t + n - c0 % n) % n [MOD n] :=
      Nat.ModEq.add_right _ (Nat.mod_modEq c0 n).symm
    have e2 : c0 % n + (t + n - c0 % n) % n ≡ c0 % n + (t + n - c0 % n) [MOD n] :=
      Nat.ModEq.add_left _ (Nat.mod_modEq _ n)
    have e3 : c0 % n + (t + n - c0 % n) = t + n := by omega
    have e4 : (c0 + (t + n - c0 % n) % n) % n = (t + n) % n := by
      have := (e1.trans e2).trans (by rw [e3])
      exact this
    rw [e4, Nat.add_mod_right, Nat.mod_eq_of_lt ht]
  rw [Finset.card_eq_one]
  refine ⟨(t + n - c0 % n) % n, ?_⟩
  ext j
  simp only [Finset.mem_filter, Finset.mem_range, Finset.mem_singleton]
  have hj0lt : (t + n - c0 % n) % n < n := Nat.mod_lt _ hnpos
  constructor
  · rintro ⟨hj, hpick⟩
    rw [hget j hj] at hpick
    simp only [Option.some.injEq] at hpick
    have hmodeq : (c0 + j) % n = (c0 + (t + n - c0 % n) % n) % n := by
      rw [key, hpick]
    have hcancel : j % n = (t + n - c0 % n) % n % n :=
      Nat.ModEq.add_left_cancel' c0 hmodeq
    rw [Nat.mod_eq_of_lt hj, Nat.mod_eq_of_lt hj0lt] at hcancel
    exact hcancel
  · intro hj
    subst hj
    refine ⟨hj0lt, ?_⟩
    rw [hget _ hj0lt, key]

/-- Concrete instantiation of `roundRobin_window_coverage`: three targets,
counter at `4`; the window of three selections is targets `1, 2, 0` — each
exactly once. -/
theorem roundRobin_window_coverage_witness :
    (rrSeq 3 4 3).get? 0 = some (some 1)
    ∧ ((Finset.range 3).filter
        (fun j => (rrSeq 3 4 3).get? j = some (some 0))).card = 1 := by
  have h := roundRobin_window_coverage 3 4 (by decide) (by decide)
  exact ⟨by rw [h.1 0 (by decide)], h.2 0 (by decide)⟩

/-! ## Claim C1 and C10 theorems -/

/-- The model reproduces the repository's `TestHashing` expectations: with
three targets and a shared, never-reset hasher, the consecutive keys
`key1`, `key2`, `key3` select indices `2`, `0`, `0`
(backends 3, 1, 1 in the test). -/
theorem hasing_matches_go_test :
    (hasing 3 fnvOffset32 "key1").1 = some 2
    ∧ (hasing 3 (hasing 3 fnvOffset32 "key1").2 "key2").1 = some 0
    ∧ (hasing 3 (hasing 3 (hasing 3 fnvOffset32 "key1").2 "key2").2 "key3").1
        = some 0 := by
  refine ⟨by decide, by decide, by decide⟩

/-- Counterexample to claim C1 as stated: on an upstream with three targets
whose hasher starts at the FNV offset basis, the first call of
`hasing "key1"` selects index 2 but an immediately following call of
`hasing "key1"` (same upstream, unchanged target list) selects index 0: the
hasher is not reset between calls, so the same key does not always return
the same proxy. -/
theorem hasing_not_deterministic :
    (hasing 3 fnvOffset32 "key1").1 = some 2
    ∧ (hasing 3 (hasing 3 fnvOffset32 "key1").2 "key1").1 = some 0
    ∧ (hasing 3 fnvOffset32 "key1").1
        ≠ (hasing 3 (hasing 3 fnvOffset32 "key1").2 "key1").1 := by
  refine ⟨by decide, by decide, by decide⟩

/-- Claim C1 (amended): `hasing` is deterministic only as a function of the
pre-call hasher state and the key: with `n ≥ 2` targets it returns the proxy
at index `FNV-1a-32(state, key) mod n` and advances the hasher state to that
hash, so two calls with the same key agree exactly when their pre-call states
yield the same index (in particular calls on upstreams with equal hasher
states agree, and a reset-per-call hasher would make the selection
deterministic per key); with a single target the call always returns that
target and leaves the state unchanged. -/
theorem hasing_state_formula (n hstate : Nat) (key : String) :
    (2 ≤ n →
      hasing n hstate key
        = (some (fnv32aUpdate hstate (strBytes key) % n),
           fnv32aUpdate hstate (strBytes key)))
    ∧ hasing 1 hstate key = (some 0, hstate) := by
  constructor
  · intro hn
    unfold hasing
    rw [if_neg (by omega : ¬ n = 1), if_neg (by omega : ¬ n = 0)]
  · rfl

/-- Concrete instantiation of `hasing_state_formula` at three targets and
key `key2`. -/
theorem hasing_state_formula_witness :
    hasing 3 fnvOffset32 "key2"
      = (some (fnv32aUpdate fnvOffset32 (strBytes "key2") % 3),
         fnv32aUpdate fnvOffset32 (strBytes "key2")) :=
  (hasing_state_formula 3 fnvOffset32 "key2").1 (by decide)

/-- Claim C10: on an upstream with exactly one target, each of the four
strategy selectors returns that target immediately and leaves its state
untouched: the round-robin counter is not incremented, the RNG is not drawn
from (for both `weighted` and `random`), and the FNV hasher keeps its state
regardless of the key, so single-target hashing is independent of the key
and of all prior hasher writes. -/
theorem single_target_selectors_pure {R : Type} (draw : R → Int → Int × R)
    (rng : R) (counter hstate : Nat) (w : Int) (key : String) :
    roundRobin 1 counter = (some 0, counter)
    ∧ weightedSel draw [w] rng = (some 0, rng)
    ∧ randomSel draw 1 rng = (some 0, rng)
    ∧ hasing 1 hstate key = (some 0, hstate) :=
  ⟨rfl, rfl, rfl, rfl⟩

/-! ## Service request handling (dynamic upstream, post-proxy bookkeeping) -/

/-- Model of `ctx.GetString`: hertz request-context string lookup, returning the empty
string when the key is absent. -/
def getString (vars : List (String × String)) (key : String) : String :=
  match vars.lookup key with
  | none => ""
  | some v => v

/-- Outcome of the dynamic-upstream resolution at the top of
`Service.ServeHTTP` (for a service whose URL hostname begins with `$`). -/
inductive DynOutcome where
  | emptyName : DynOutcome
  | unknownName (name : String) : DynOutcome
  | resolved (name : String) : DynOutcome
deriving DecidableEq

/-- The dynamic-upstream branch of `Service.ServeHTTP`: read the upstream id
from the request context under the `$name` variable; an empty value or a
value naming no known upstream is a failure, otherwise the resolved upstream
is used for strategy selection. -/
def dynResolve (dynUpstream : String) (vars : List (String × String))
    (upstreamIds : List String) : DynOutcome :=
  if getString vars dynUpstream = "" then DynOutcome.emptyName
  else if getString vars dynUpstream ∈ upstreamIds then
    DynOutcome.resolved (getString vars dynUpstream)
  else DynOutcome.unknownName (getString vars dynUpstream)

/-- Observable effects of a `Service.ServeHTTP` branch. -/
structure ServeEffects where
  warned : Bool
  aborted : Bool
  proxyInvoked : Bool
  statusSet : Option Nat
deriving DecidableEq

/-- Effects of the dynamic-upstream failure branches of `Service.ServeHTTP`,
as written in the source: both branches log a warning and `ctx.Abort()` and
`return` without invoking any proxy; neither calls `ctx.SetStatusCode`
(the `ctx.SetStatusCode(503)` in the function body belongs to the separate
`proxy == nil` fall-through, which these branches return before reaching).
`none` on the `resolved` outcome means execution continues past this
branch. -/
def serveDynamicFailure (o : DynOutcome) : Option ServeEffects :=
  match o with
  | DynOutcome.emptyName =>
      some { warned := true, aborted := true, proxyInvoked := false, statusSet := none }
  | DynOutcome.unknownName _ =>
      some { warned := true, aborted := true, proxyInvoked := false, statusSet := none }
  | DynOutcome.resolved _ => none

/-- Claim C3 evaluated at the failing inputs: for a dynamic service
`$backend`, an empty request-context variable and an unknown upstream name
both log a warning and abort without invoking a proxy — but no status code
is set at all, in particular not 503 (the response keeps the server's
default status), contradicting the claim's `503`. -/
theorem dynamic_upstream_missing_no_503 :
    dynResolve "$backend" [] ["up1"] = DynOutcome.emptyName
    ∧ dynResolve "$backend" [("$backend", "nope")] ["up1"]
        = DynOutcome.unknownName "nope"
    ∧ serveDynamicFailure (dynResolve "$backend" [] ["up1"])
        = some { warned := true, aborted := true, proxyInvoked := false,
                 statusSet := none }
    ∧ serveDynamicFailure (dynResolve "$backend" [("$backend", "nope")] ["up1"])
        = some { warned := true, aborted := true, proxyInvoked := false,
                 statusSet := none }
    ∧ (serveDynamicFailure (dynResolve "$backend" [] ["up1"])).map
        ServeEffects.statusSet ≠ some (some 503) := by
  refine ⟨by decide, by decide, by decide, by decide, by decide⟩

/-- The per-request `target_timeout` flag: `Proxy.ServeHTTP` sets it exactly
when the client call fails and the error string is `"timeout"` (`errStr`
models `err.Error()`; `none` means the call succeeded). -/
def targetTimeoutFlag (errStr : Option String) : Bool :=
  errStr == some "timeout"

/-- Result of the post-proxy bookkeeping in `Service.ServeHTTP`. -/
structure PostProxyResult where
  status : Nat
  upstreamStatusVar : Option Nat
  upstreamDurationSet : Bool
  addFailedCountCalls : Nat
deriving DecidableEq

/-- The post-proxy step of `Service.ServeHTTP`: record `upstream_duration`;
if the `target_timeout` flag is set force the response status to `504`,
otherwise record the upstream status variable from the response status; then
call `AddFailedCount(1)` on the selected proxy when the (possibly rewritten)
response status is at least 500. -/
def servicePostProxy (targetTimeout : Bool) (respStatus : Nat) : PostProxyResult :=
  { status := if targetTimeout then 504 else respStatus
    upstreamStatusVar := if targetTimeout then none else some respStatus
    upstreamDurationSet := true
    addFailedCountCalls :=
      if 500 ≤ (if targetTimeout then 504 else respStatus) then 1 else 0 }

/-- Claim C7: the service records `upstream_duration`; the `target_timeout`
flag is set exactly when the client error string is `"timeout"`; when set,
the response status becomes 504, otherwise the recorded upstream status
equals the response status; and `AddFailedCount(1)` is called exactly when
the response status after this step is at least 500. -/
theorem service_post_proxy_spec (errStr : Option String) (respStatus : Nat) :
    (targetTimeoutFlag errStr = true ↔ errStr = some "timeout")
    ∧ (servicePostProxy (targetTimeoutFlag errStr) respStatus).upstreamDurationSet
        = true
    ∧ (targetTimeoutFlag errStr = true →
        (servicePostProxy (targetTimeoutFlag errStr) respStatus).status = 504)
    ∧ (targetTimeoutFlag errStr = false →
        (servicePostProxy (targetTimeoutFlag errStr) respStatus).status = respStatus
        ∧ (servicePostProxy (targetTimeoutFlag errStr) respStatus).upstreamStatusVar
            = some respStatus)
    ∧ (500 ≤ (servicePostProxy (targetTimeoutFlag errStr) respStatus).status ↔
        (servicePostProxy (targetTimeoutFlag errStr) respStatus).addFailedCountCalls
          = 1) := by
  refine ⟨?_, rfl, ?_, ?_, ?_⟩
  · simp [targetTimeoutFlag]
  · intro hf
    simp [servicePostProxy, hf]
  · intro hf
    simp [servicePostProxy, hf]
  · cases hf : targetTimeoutFlag errStr with
    | true =>
        simp [servicePostProxy]
    | false =>
        by_cases h5 : 500 ≤ respStatus
        · simp [servicePostProxy, h5]
        · simp [servicePostProxy, h5]

/-- Concrete instantiation of `service_post_proxy_spec`: a `"timeout"` client
error yields status 504 and one `AddFailedCount` call; a successful call
with upstream status 502 records 502 and also feeds back one failure. -/
theorem service_post_proxy_spec_witness :
    (servicePostProxy (targetTimeoutFlag (some "timeout")) 200).status = 504
    ∧ (servicePostProxy (targetTimeoutFlag (some "timeout")) 200).addFailedCountCalls
        = 1
    ∧ (servicePostProxy (targetTimeoutFlag none) 502).upstreamStatusVar = some 502 := by
  have h1 := service_post_proxy_spec (some "timeout") 200
  have h2 := service_post_proxy_spec none 502
  refine ⟨h1.2.2.1 (by decide), ?_, (h2.2.2.2.1 (by decide)).2⟩
  exact h1.2.2.2.2.mp (by rw [h1.2.2.1 (by decide)]; norm_num)

/-! ## Access-log template substitution -/

/-- The `$status` directive name (`domain.STATUS`). -/
def STATUS : String := "$status"

/-- The `$upstream_status` directive name (`domain.UPSTREAM_STATUS`). -/
def UPSTREAM_STATUS : String := "$upstream_status"

/-- The replacement pairs built by `LoggerTracer.buildReplacer` for the
status directives, as written in the source: the `case domain.STATUS:` arm
has an empty body and contributes no pair, and the
`case domain.UPSTREAM_STATUS:` arm appends a pair keyed `domain.STATUS`
whose value is the gateway response status code (`c.Response.StatusCode()`).
Other directives contribute pairs for their own names and are orthogonal to
the status claim; templates over the status directives yield exactly these
pairs. -/
def statusReplacementPairs (matchVars : List String) (respStatus : Nat) :
    List (String × String) :=
  matchVars.flatMap (fun v =>
    if v = STATUS then []
    else if v = UPSTREAM_STATUS then [(STATUS, toString respStatus)]
    else [])

/-- Modelled from the spec: the desired semantics of the status directives —
"likely two independent substitutions" — would build one pair per directive,
`$status` mapping to the gateway response status and `$upstream_status` to
the recorded upstream status. -/
def desiredStatusReplacementPairs (respStatus upstreamStatus : Nat) :
    List (String × String) :=
  [(STATUS, toString respStatus), (UPSTREAM_STATUS, toString upstreamStatus)]

/-- Go `strings.Replacer.Replace`: scan the input left to right; at each
position apply the first pair whose (non-empty) pattern is a prefix of the
remaining input, emit its replacement and skip the pattern, otherwise copy
one character.  `fuel` bounds the recursion and is instantiated with the
input length (each step consumes at least one character). -/
def replaceChars (pairs : List (String × String)) : Nat → List Char → List Char
  | _, [] => []
  | 0, cs => cs
  | Nat.succ fuel, c :: rest =>
      match pairs.find? (fun p =>
          decide (p.1.data ≠ []) && p.1.data.isPrefixOf (c :: rest)) with
      | some p => p.2.data ++ replaceChars pairs fuel ((c :: rest).drop p.1.length)
      | none => c :: replaceChars pairs fuel rest

/-- Application of `replacer.Replace(template)` over strings. -/
def replaceAllGo (pairs : List (String × String)) (s : String) : String :=
  ⟨replaceChars pairs s.length s.data⟩

/-- Claim C8 evaluated on the code: with gateway response status `200`,
expanding the template `"$status $upstream_status"` substitutes `$status`
with `200` (the pair produced by the `$upstream_status` case arm) but leaves
`$upstream_status` literal; a template of `$status` alone is not substituted
at all (its case arm is empty); both differ from the desired independent
substitution, which with upstream status `502` yields `"200 502"`. -/
theorem access_log_status_substitution_bug :
    replaceAllGo (statusReplacementPairs [STATUS, UPSTREAM_STATUS] 200)
        "$status $upstream_status" = "200 $upstream_status"
    ∧ replaceAllGo (statusReplacementPairs [STATUS] 200) "$status" = "$status"
    ∧ replaceAllGo (desiredStatusReplacementPairs 200 502)
        "$status $upstream_status" = "200 502"
    ∧ "200 $upstream_status" ≠ "200 502" := by
  refine ⟨by decide, by decide, by decide, by decide⟩

end Bifrost
